import Mathlib

/-!
Verification development for `src/texture_loader.rs` of `bevy_egui`
(`TheRawMeatball/bevy_egui`): a shallow embedding in Lean 4 of the
texture-loader cache (option-variant codec, resource-identifier codec,
handle allocator, entry registry, registration queue, and the
`load` / `forget` / `forget_all` operations), together with theorems
settling the specification's claims.

Modelling conventions:
* Rust `&str` / `String` values are modelled as `List Char` (the character
  sequence of the string); byte slicing such as `&uri[7..]` is modelled by
  `List.drop` on characters, which agrees with the source because every
  sliced-off part of the schemes involved is ASCII.
* `HashMap<String, LoaderEntry>` is modelled as an association list whose
  observable behaviour (lookup / insert-replace / remove / clear) matches
  the hash map's.
* `u64` / `u32` / `usize` values are modelled as `Nat`, with explicit
  `% 2 ^ w` at the points where the Rust code truncates
  (`(index << 32) >> 32` and the `as u32` casts).  The allocator counter is
  an unbounded `Nat`: the Rust counter is a wrapping `u64`, but the
  `NonMaxU64::new(..).unwrap()` on the allocation path panics on the value
  `2^64 - 1` before any wrapped value could ever be stored, so every
  non-panicking execution sees a strictly increasing counter.
* The external `uuid` crate's canonical (hyphenated, lowercase) `Display`
  and the hyphenated branch of its parser are modelled over the UUID's
  128-bit value; `u64::from_str` is modelled with its optional leading
  `+` sign and its range check.
-/

/- ## Option-Variant Codec (egui sampling options) -/

/-- `egui::TextureFilter` (the two variants used by the source). -/
inductive TextureFilter where
  | Nearest
  | Linear
deriving DecidableEq

/-- `egui::TextureWrapMode`. -/
inductive TextureWrapMode where
  | ClampToEdge
  | Repeat
  | MirroredRepeat
deriving DecidableEq

/-- `egui::TextureOptions`: the three fields the source matches on. -/
structure TextureOptions where
  magnification : TextureFilter
  minification : TextureFilter
  wrap_mode : TextureWrapMode
deriving DecidableEq

/-- `texture_option_bits` from the source: OR of the three bit
contributions (magnification bit 0, minification bit 1, wrap mode
bits 2/3). -/
def texture_option_bits (options : TextureOptions) : Nat :=
  let magnification :=
    match options.magnification with
    | .Nearest => 0
    | .Linear => 1
  let minification :=
    match options.minification with
    | .Nearest => 0
    | .Linear => 2
  let wrap_mode :=
    match options.wrap_mode with
    | .ClampToEdge => 0
    | .Repeat => 4
    | .MirroredRepeat => 8
  magnification ||| minification ||| wrap_mode

/-- The inner `get_filter` helper of `decode_texture_option_bits`. -/
def get_filter (bit : Bool) : TextureFilter :=
  if bit then .Linear else .Nearest

/-- `decode_texture_option_bits` from the source: reads bits 0, 1 and
then tests bit 2 before bit 3 for the wrap mode. -/
def decode_texture_option_bits (bits : Nat) : TextureOptions :=
  { magnification := get_filter (bits &&& 1 > 0)
    minification := get_filter (bits &&& 2 > 0)
    wrap_mode :=
      if bits &&& 4 > 0 then .Repeat
      else if bits &&& 8 > 0 then .MirroredRepeat
      else .ClampToEdge }

/- ## Decimal codec (`format!` / `u64::from_str`) -/

/-- Least-significant-first decimal digits of `n`, with explicit fuel
(`n` itself is always enough); structurally recursive so that concrete
keys evaluate inside the kernel. -/
def decCharsAux : Nat → Nat → List Char
  | 0, _ => []
  | fuel + 1, n =>
    if n = 0 then []
    else Nat.digitChar (n % 10) :: decCharsAux fuel (n / 10)

/-- Decimal character sequence of a natural number, as produced by Rust's
`format!` on an unsigned integer (big-endian digits, no sign, `0` for 0). -/
def natToDecChars (n : Nat) : List Char :=
  if n = 0 then ['0'] else (decCharsAux n n).reverse

/-- Accumulating decimal parser over a character list: fails on the first
non-digit, otherwise folds the digits onto `acc`. -/
def parseDecCore (acc : Nat) : List Char → Option Nat
  | [] => some acc
  | c :: cs =>
    if c.isDigit then parseDecCore (acc * 10 + (c.toNat - 48)) cs
    else none

/-- `u64::from_str`: an optional leading `+`, then one or more ASCII
digits, rejecting values outside the `u64` range. -/
def parseU64 (cs : List Char) : Option Nat :=
  let digitsPart := if cs.head? = some '+' then cs.tail else cs
  if digitsPart.isEmpty then none
  else
    match parseDecCore 0 digitsPart with
    | some v => if v < 2 ^ 64 then some v else none
    | none => none

/- ## Hexadecimal codec (uuid crate, modelled) -/

/-- Big-endian fixed-width lowercase hexadecimal rendering of `n % 16 ^ w`,
as the `uuid` crate's `Display` renders each field. -/
def hexFixed : Nat → Nat → List Char
  | 0, _ => []
  | w + 1, n => Nat.digitChar (n / 16 ^ w % 16) :: hexFixed w n

/-- Value of one hexadecimal character (either case), `none` otherwise. -/
def hexVal (c : Char) : Option Nat :=
  if c.isDigit then some (c.toNat - 48)
  else if 'a' ≤ c ∧ c ≤ 'f' then some (c.toNat - 87)
  else if 'A' ≤ c ∧ c ≤ 'F' then some (c.toNat - 55)
  else none

/-- Consume exactly `w` hexadecimal characters, folding them onto `acc`;
returns the value and the unconsumed remainder. -/
def parseHexCore (acc : Nat) : Nat → List Char → Option (Nat × List Char)
  | 0, cs => some (acc, cs)
  | _ + 1, [] => none
  | w + 1, c :: cs =>
    match hexVal c with
    | some d => parseHexCore (acc * 16 + d) w cs
    | none => none

/-- Modelled from the `uuid` crate: the canonical hyphenated lowercase
`Display` form (8-4-4-4-12 hexadecimal digits) of a 128-bit UUID value,
fields taken big-endian from the value. -/
def uuidChars (u : Nat) : List Char :=
  hexFixed 8 (u >>> 96) ++ '-' ::
    (hexFixed 4 (u >>> 80) ++ '-' ::
      (hexFixed 4 (u >>> 64) ++ '-' ::
        (hexFixed 4 (u >>> 48) ++ '-' :: hexFixed 12 u)))

/-- Modelled from the `uuid` crate: parser for the canonical hyphenated
form, accepting both hexadecimal letter cases and requiring the exact
8-4-4-4-12 shape with nothing left over. -/
def parseUuid (cs : List Char) : Option Nat :=
  match parseHexCore 0 8 cs with
  | some (a, '-' :: cs1) =>
    match parseHexCore 0 4 cs1 with
    | some (b, '-' :: cs2) =>
      match parseHexCore 0 4 cs2 with
      | some (c, '-' :: cs3) =>
        match parseHexCore 0 4 cs3 with
        | some (d, '-' :: cs4) =>
          match parseHexCore 0 12 cs4 with
          | some (e, []) =>
            some (a * 2 ^ 96 + b * 2 ^ 80 + c * 2 ^ 64 + d * 2 ^ 48 + e)
          | _ => none
        | _ => none
      | _ => none
    | _ => none
  | _ => none

/- ## Resource-Identifier Codec -/

/-- `bevy::asset::AssetId<Image>`: either an `AssetIndex` (two `u32`
fields `generation` and `index`) or a 128-bit UUID. -/
inductive AssetId where
  | index (generation : Nat) (idx : Nat)
  | uuid (uuid : Nat)
deriving DecidableEq

/-- The scheme literal `bevy://` recognised by the loader. -/
def bevyScheme : List Char := "bevy://".data

/-- `AsImageSource::into_uri` from the source: pack
`(generation << 32) | index` and render `bevy://index/<decimal>`, or
render `bevy://uuid/<canonical uuid text>`. -/
def into_uri : AssetId → List Char
  | .index generation idx =>
    let combined := (generation <<< 32) ||| idx
    "bevy://index/".data ++ natToDecChars combined
  | .uuid u => "bevy://uuid/".data ++ uuidChars u

/-- The identifier-decoding block of `BevyTextureLoader::load`
(lines 99–115 of the source), applied to the URI with the scheme already
stripped: `uuid/` payloads parse as a UUID, `index/` payloads parse as a
`u64` that is split into `generation = v >> 32` and
`index = (v << 32) >> 32` (with the `u64` wrap of the shift and the
`as u32` casts made explicit); any other shape is malformed. -/
def parse_bevy_id (uri_remainder : List Char) : Option AssetId :=
  if ("uuid/".data).isPrefixOf uri_remainder then
    (parseUuid (uri_remainder.drop 5)).map AssetId.uuid
  else if ("index/".data).isPrefixOf uri_remainder then
    (parseU64 (uri_remainder.drop 6)).map fun v =>
      let generation := v >>> 32
      let idx := ((v <<< 32) % 2 ^ 64) >>> 32
      AssetId.index (generation % 2 ^ 32) (idx % 2 ^ 32)
  else none

/-- Full key decoding as `load` performs it: the scheme check of line 76
followed by the payload decoding of lines 99–115. -/
def from_key (uri : List Char) : Option AssetId :=
  if bevyScheme.isPrefixOf uri then parse_bevy_id (uri.drop 7) else none

/- ## egui result types -/

/-- `egui::Vec2` (an `f32` pair).  The loader performs no arithmetic on
sizes — it only stores the value written by the resolve path and returns
it unchanged — so the carrier is modelled with integer coordinates. -/
structure Vec2 where
  x : Int
  y : Int
deriving DecidableEq

/-- `egui::TextureId`: only the `User` variant is produced by this
loader. -/
inductive TextureId where
  | User (id : Nat)
deriving DecidableEq

/-- `egui::load::SizedTexture`. -/
structure SizedTexture where
  id : TextureId
  size : Vec2
deriving DecidableEq

/-- `egui::load::TexturePoll`. -/
inductive TexturePoll where
  | Pending (size : Option Vec2)
  | Ready (texture : SizedTexture)
deriving DecidableEq

/-- `egui::load::LoadError`: `NotSupported` is the only variant this
loader ever produces. -/
inductive LoadError where
  | NotSupported
deriving DecidableEq

/-- `egui::load::TextureLoadResult` (`Result<TexturePoll, LoadError>`). -/
abbrev TextureLoadResult := Except LoadError TexturePoll

deriving instance DecidableEq for Except

/- ## Association-list model of the registry HashMap -/

/-- Lookup: first binding of the key, as `HashMap::get`. -/
def assocFind {β : Type} (m : List (List Char × β)) (k : List Char) :
    Option β :=
  match m with
  | [] => none
  | (k2, v) :: rest => if k2 = k then some v else assocFind rest k

/-- Removal of every binding of the key, as `HashMap::remove`. -/
def assocErase {β : Type} (m : List (List Char × β)) (k : List Char) :
    List (List Char × β) :=
  m.filter fun p => decide (p.1 ≠ k)

/-- Insert-or-replace, as `HashMap::insert` (observable behaviour:
lookup of `k` now yields `v`, every other key is unchanged). -/
def assocInsert {β : Type} (m : List (List Char × β)) (k : List Char)
    (v : β) : List (List Char × β) :=
  (k, v) :: assocErase m k

/- ## Loader state -/

/-- `LoaderEntry` from the source: the 12 optional egui ids (one slot per
option-variant index), the originating bevy asset id, and the optional
resolved size. -/
structure LoaderEntry where
  egui_ids : List (Option Nat)
  bevy_id : AssetId
  size : Option Vec2
deriving DecidableEq

/-- `BevyTextureLoader`: registry map, registration queue `new`, and the
allocator counter.  `minted` is a specification-only ghost history of the
handle values the allocator has returned, in mint order; no operation
reads it. -/
structure BevyTextureLoader where
  map : List (List Char × LoaderEntry)
  new : List (List Char × AssetId)
  user_id_counter : Nat
  minted : List Nat
deriving DecidableEq

/-- The `Default` state: empty registry, empty queue, counter 0. -/
def initLoader : BevyTextureLoader :=
  { map := [], new := [], user_id_counter := 0, minted := [] }

/-- One allocation — `user_id_counter.fetch_add(1, Relaxed)` wrapped in
`NonMaxU64::new(..).unwrap()` — returning the pre-increment value.  The
ghost `minted` history records the returned handle. -/
def alloc (s : BevyTextureLoader) : Nat × BevyTextureLoader :=
  (s.user_id_counter,
   { s with
      user_id_counter := s.user_id_counter + 1,
      minted := s.minted ++ [s.user_id_counter] })

/-- `BevyTextureLoader::load` as a state transformer: scheme check,
existing-entry path (fill the variant slot on demand, then report
Ready/Pending from the stored size), and the fresh path (decode the id,
create the entry with the one slot filled, insert it, enqueue one
registration record, report Pending). -/
def load (s : BevyTextureLoader) (uri : List Char)
    (texture_options : TextureOptions) :
    TextureLoadResult × BevyTextureLoader :=
  if bevyScheme.isPrefixOf uri then
    let key := texture_option_bits texture_options
    match assocFind s.map uri with
    | some entry =>
      match entry.egui_ids.getD key none with
      | some id =>
        match entry.size with
        | some size => (.ok (.Ready ⟨.User id, size⟩), s)
        | none => (.ok (.Pending none), s)
      | none =>
        let a := alloc s
        let entry2 :=
          { entry with egui_ids := entry.egui_ids.set key (some a.1) }
        let s2 := { a.2 with map := assocInsert a.2.map uri entry2 }
        match entry.size with
        | some size => (.ok (.Ready ⟨.User a.1, size⟩), s2)
        | none => (.ok (.Pending none), s2)
    | none =>
      match parse_bevy_id (uri.drop 7) with
      | none => (.error .NotSupported, s)
      | some bevy_id =>
        let a := alloc s
        let egui_ids :=
          (List.replicate 12 (none : Option Nat)).set key (some a.1)
        let s2 :=
          { a.2 with
             map := assocInsert a.2.map uri ⟨egui_ids, bevy_id, none⟩,
             new := a.2.new ++ [(uri, bevy_id)] }
        (.ok (.Pending none), s2)
  else (.error .NotSupported, s)

/-- `BevyTextureLoader::forget`. -/
def forget (s : BevyTextureLoader) (uri : List Char) : BevyTextureLoader :=
  { s with map := assocErase s.map uri }

/-- `BevyTextureLoader::forget_all`. -/
def forget_all (s : BevyTextureLoader) : BevyTextureLoader :=
  { s with map := [] }

/-- The handle stored in variant slot `key` of the entry for `uri`, if
any. -/
def slotOf (s : BevyTextureLoader) (uri : List Char) (key : Nat) :
    Option Nat :=
  match assocFind s.map uri with
  | some entry => entry.egui_ids.getD key none
  | none => none

/- ## Operation sequences -/

/-- One public cache operation (for reasoning about whole call
sequences; `load`'s result value is irrelevant to the state). -/
inductive LoaderOp where
  | load (uri : List Char) (options : TextureOptions)
  | forget (uri : List Char)
  | forgetAll

/-- Apply one operation to the state. -/
def stepOp (s : BevyTextureLoader) : LoaderOp → BevyTextureLoader
  | .load uri options => (load s uri options).2
  | .forget uri => forget s uri
  | .forgetAll => forget_all s

/-- Run a sequence of operations. -/
def runOps (s : BevyTextureLoader) : List LoaderOp → BevyTextureLoader
  | [] => s
  | op :: ops => runOps (stepOp s op) ops

/- ## Association-list lemmas -/

theorem assocFind_erase_self {β : Type} (m : List (List Char × β))
    (k : List Char) : assocFind (assocErase m k) k = none := by
  induction m with
  | nil => rfl
  | cons p rest ih =>
    by_cases h : p.1 = k
    · simpa [assocErase, h] using ih
    · simpa [assocErase, assocFind, h] using ih

theorem assocFind_erase_ne {β : Type} (m : List (List Char × β))
    (k k' : List Char) (h : k' ≠ k) :
    assocFind (assocErase m k) k' = assocFind m k' := by
  induction m with
  | nil => rfl
  | cons p rest ih =>
    obtain ⟨pk, pv⟩ := p
    simp only [assocErase, decide_not] at ih
    by_cases hp : pk = k
    · have hkk' : ¬ k = k' := fun hc => h hc.symm
      simp [assocErase, assocFind, List.filter_cons, hp, hkk', ih]
    · by_cases hq : pk = k'
      · simp [assocErase, assocFind, List.filter_cons, hp, hq, h]
      · simp [assocErase, assocFind, List.filter_cons, hp, hq, ih]

theorem assocFind_insert_self {β : Type} (m : List (List Char × β))
    (k : List Char) (v : β) : assocFind (assocInsert m k v) k = some v := by
  simp [assocInsert, assocFind]

theorem assocFind_insert_ne {β : Type} (m : List (List Char × β))
    (k k' : List Char) (v : β) (h : k' ≠ k) :
    assocFind (assocInsert m k v) k' = assocFind m k' := by
  have hne : k ≠ k' := fun hc => h hc.symm
  simp [assocInsert, assocFind, hne]
  exact assocFind_erase_ne m k k' h

/- ## List slot lemmas -/

theorem getD_set_self (l : List (Option Nat)) (i : Nat) (v : Option Nat)
    (h : i < l.length) : (l.set i v).getD i none = v := by
  induction l generalizing i with
  | nil => simp at h
  | cons a t ih =>
    cases i with
    | zero => rfl
    | succ j =>
      simp only [List.set, List.getD, List.getElem?_cons_succ] at *
      exact ih j (by simpa using h)

/-- The option-variant index is always in `[0, 12)`. -/
theorem texture_option_bits_lt_12 (o : TextureOptions) :
    texture_option_bits o < 12 := by
  obtain ⟨m, n, w⟩ := o
  cases m <;> cases n <;> cases w <;> decide

/- ## Path lemmas for `load` -/

/-- The fresh-key path of `load` (lines 96–134 of the source), spelled
out: Pending result, a new entry with exactly the requested slot holding
the freshly minted handle, one registration record appended, counter
advanced by one. -/
theorem load_fresh (s : BevyTextureLoader) (uri : List Char)
    (opts : TextureOptions) (id : AssetId)
    (hpre : bevyScheme.isPrefixOf uri = true)
    (habs : assocFind s.map uri = none)
    (hparse : parse_bevy_id (uri.drop 7) = some id) :
    load s uri opts =
      (.ok (.Pending none),
       { map := assocInsert s.map uri
           ⟨(List.replicate 12 (none : Option Nat)).set
               (texture_option_bits opts) (some s.user_id_counter),
             id, none⟩,
         new := s.new ++ [(uri, id)],
         user_id_counter := s.user_id_counter + 1,
         minted := s.minted ++ [s.user_id_counter] }) := by
  simp [load, hpre, habs, hparse, alloc]

/-- The existing-entry path of `load` when the requested variant slot is
already filled: no state change, Ready/Pending according to the stored
size. -/
theorem load_existing_filled (s : BevyTextureLoader) (uri : List Char)
    (opts : TextureOptions) (entry : LoaderEntry) (id : Nat)
    (hpre : bevyScheme.isPrefixOf uri = true)
    (hfind : assocFind s.map uri = some entry)
    (hslot : entry.egui_ids.getD (texture_option_bits opts) none = some id) :
    load s uri opts =
      ((match entry.size with
        | some size => .ok (.Ready ⟨.User id, size⟩)
        | none => .ok (.Pending none)), s) := by
  have hslot' : entry.egui_ids[texture_option_bits opts]?.getD none =
      some id := by
    simpa [List.getD_eq_getElem?_getD] using hslot
  cases hsize : entry.size <;> simp [load, hpre, hfind, hslot', hsize, alloc]

/-- The existing-entry path of `load` when the requested variant slot is
empty: a handle is minted and stored in the slot, then Ready/Pending is
reported from the stored size. -/
theorem load_existing_empty (s : BevyTextureLoader) (uri : List Char)
    (opts : TextureOptions) (entry : LoaderEntry)
    (hpre : bevyScheme.isPrefixOf uri = true)
    (hfind : assocFind s.map uri = some entry)
    (hslot : entry.egui_ids.getD (texture_option_bits opts) none = none) :
    load s uri opts =
      ((match entry.size with
        | some size => .ok (.Ready ⟨.User s.user_id_counter, size⟩)
        | none => .ok (.Pending none)),
       { s with
          map := assocInsert s.map uri
            { entry with
                egui_ids := entry.egui_ids.set (texture_option_bits opts)
                  (some s.user_id_counter) },
          user_id_counter := s.user_id_counter + 1,
          minted := s.minted ++ [s.user_id_counter] }) := by
  have hslot' : entry.egui_ids[texture_option_bits opts]?.getD none =
      none := by
    simpa [List.getD_eq_getElem?_getD] using hslot
  cases hsize : entry.size <;> simp [load, hpre, hfind, hslot', hsize, alloc]

/-- Second-request helper: a `load` on a key already present in the
registry never touches the registration queue. -/
theorem load_new_of_mem (s : BevyTextureLoader) (uri : List Char)
    (opts : TextureOptions) (entry : LoaderEntry)
    (hfind : assocFind s.map uri = some entry) :
    (load s uri opts).2.new = s.new := by
  cases hpre : bevyScheme.isPrefixOf uri with
  | false => simp [load, hpre]
  | true =>
    cases hslot : entry.egui_ids.getD (texture_option_bits opts) none with
    | some id =>
      rw [load_existing_filled s uri opts entry id hpre hfind hslot]
    | none =>
      rw [load_existing_empty s uri opts entry hpre hfind hslot]

/-- Unfolding helper for `slotOf` when the entry is known. -/
theorem slotOf_eq (s : BevyTextureLoader) (uri : List Char) (key : Nat)
    (entry : LoaderEntry) (hfind : assocFind s.map uri = some entry) :
    slotOf s uri key = entry.egui_ids.getD key none := by
  simp [slotOf, hfind]

/-- C1: on a key whose Entry already exists, `request` is idempotent per
variant slot: after the first request with given options the slot for
their option-variant index holds a handle (freshly allocated from the
counter exactly when the slot was empty), and a subsequent request with
the same key and options leaves the state unchanged and yields that same
stored handle rather than allocating a new one. -/
theorem claim_C1 (s : BevyTextureLoader) (uri : List Char)
    (opts : TextureOptions) (entry : LoaderEntry)
    (hpre : bevyScheme.isPrefixOf uri = true)
    (hfind : assocFind s.map uri = some entry)
    (hlen : entry.egui_ids.length = 12) :
    ∃ h : Nat,
      slotOf (load s uri opts).2 uri (texture_option_bits opts) = some h ∧
      (entry.egui_ids.getD (texture_option_bits opts) none = none →
        h = s.user_id_counter) ∧
      (load (load s uri opts).2 uri opts).2 = (load s uri opts).2 ∧
      slotOf (load (load s uri opts).2 uri opts).2 uri
        (texture_option_bits opts) = some h := by
  cases hslot : entry.egui_ids.getD (texture_option_bits opts) none with
  | some id =>
    have hl := load_existing_filled s uri opts entry id hpre hfind hslot
    have hs1 : (load s uri opts).2 = s := by rw [hl]
    refine ⟨id, ?_, ?_, ?_, ?_⟩
    · rw [hs1, slotOf_eq s uri _ entry hfind]
      exact hslot
    · intro hn
      cases hn
    · rw [hs1]
      exact hs1
    · rw [hs1, hs1, slotOf_eq s uri _ entry hfind]
      exact hslot
  | none =>
    have hl := load_existing_empty s uri opts entry hpre hfind hslot
    have hklen : texture_option_bits opts < entry.egui_ids.length := by
      rw [hlen]; exact texture_option_bits_lt_12 opts
    have hfind2 :
        assocFind (load s uri opts).2.map uri =
          some { entry with
                  egui_ids := entry.egui_ids.set (texture_option_bits opts)
                    (some s.user_id_counter) } := by
      rw [hl]
      exact assocFind_insert_self _ _ _
    have hslot2 :
        ({ entry with
            egui_ids := entry.egui_ids.set (texture_option_bits opts)
              (some s.user_id_counter) } : LoaderEntry).egui_ids.getD
            (texture_option_bits opts) none = some s.user_id_counter :=
      getD_set_self _ _ _ hklen
    have hl2 := load_existing_filled (load s uri opts).2 uri opts _
      s.user_id_counter hpre hfind2 hslot2
    have hs2 : (load (load s uri opts).2 uri opts).2 = (load s uri opts).2 := by
      rw [hl2]
    refine ⟨s.user_id_counter, ?_, fun _ => rfl, hs2, ?_⟩
    · rw [slotOf_eq _ uri _ _ hfind2]
      exact hslot2
    · rw [hs2, slotOf_eq _ uri _ _ hfind2]
      exact hslot2

/-- C2: on a well-formed unseen key, `request` decodes the key, creates
an Entry whose 12-slot array has exactly the requested slot filled with
the freshly minted handle and whose size is absent, inserts it (leaving
every other key's binding unchanged), appends exactly one registration
record, advances the counter by one, and returns Pending; any further
request on the same key appends no additional record. -/
theorem claim_C2 (s : BevyTextureLoader) (uri : List Char)
    (opts : TextureOptions) (id : AssetId)
    (hpre : bevyScheme.isPrefixOf uri = true)
    (habs : assocFind s.map uri = none)
    (hparse : parse_bevy_id (uri.drop 7) = some id) :
    (load s uri opts).1 = .ok (.Pending none) ∧
    assocFind (load s uri opts).2.map uri =
      some ⟨(List.replicate 12 none).set (texture_option_bits opts)
          (some s.user_id_counter), id, none⟩ ∧
    (∀ k, k ≠ uri →
      assocFind (load s uri opts).2.map k = assocFind s.map k) ∧
    (load s uri opts).2.new = s.new ++ [(uri, id)] ∧
    (load s uri opts).2.user_id_counter = s.user_id_counter + 1 ∧
    ∀ opts2,
      (load (load s uri opts).2 uri opts2).2.new = (load s uri opts).2.new := by
  have hl := load_fresh s uri opts id hpre habs hparse
  have hfind2 :
      assocFind (load s uri opts).2.map uri =
        some ⟨(List.replicate 12 none).set (texture_option_bits opts)
            (some s.user_id_counter), id, none⟩ := by
    rw [hl]
    exact assocFind_insert_self _ _ _
  refine ⟨by rw [hl], hfind2, ?_, by rw [hl], by rw [hl], ?_⟩
  · intro k hk
    rw [hl]
    exact assocFind_insert_ne _ _ _ _ hk
  · intro opts2
    exact load_new_of_mem _ _ _ _ hfind2

/-- C5: a key without the `bevy://` scheme, and a key with the scheme
but no Entry whose payload fails to decode (bad shape or unparsable
index/uuid), make `request` fail with NotSupported and leave the whole
state unchanged (no entry, no registration record, no handle minted). -/
theorem claim_C5 (s : BevyTextureLoader) (uri : List Char)
    (opts : TextureOptions) :
    (bevyScheme.isPrefixOf uri = false →
      load s uri opts = (.error .NotSupported, s)) ∧
    (assocFind s.map uri = none → parse_bevy_id (uri.drop 7) = none →
      load s uri opts = (.error .NotSupported, s)) := by
  constructor
  · intro hpre
    simp [load, hpre]
  · intro habs hparse
    cases hpre : bevyScheme.isPrefixOf uri
    · simp [load, hpre]
    · simp [load, hpre, habs, hparse]

/-- C6: on an Entry whose size is present, `request` returns Ready with
the stored size for any options — also on the first call for a variant
slot never requested before, because the slot is ensured (allocating the
counter value if empty) before the size is checked. -/
theorem claim_C6 (s : BevyTextureLoader) (uri : List Char)
    (opts : TextureOptions) (entry : LoaderEntry) (sz : Vec2)
    (hpre : bevyScheme.isPrefixOf uri = true)
    (hfind : assocFind s.map uri = some entry)
    (hsize : entry.size = some sz) :
    (load s uri opts).1 =
      .ok (.Ready ⟨.User ((entry.egui_ids.getD (texture_option_bits opts)
          none).getD s.user_id_counter), sz⟩) := by
  cases hslot : entry.egui_ids.getD (texture_option_bits opts) none with
  | some id =>
    rw [load_existing_filled s uri opts entry id hpre hfind hslot, hsize]
    rfl
  | none =>
    rw [load_existing_empty s uri opts entry hpre hfind hslot, hsize]
    rfl

/-- C7: `forget` removes the Entry for the key if present (a no-op
otherwise), touching neither the queue nor the counter; a subsequent
well-formed request behaves exactly as on a never-seen key: Pending, a
fresh entry with a newly minted handle in the one requested slot, and a
fresh registration record appended, with nothing of the forgotten Entry
influencing the result. -/
theorem claim_C7 (s : BevyTextureLoader) (uri : List Char)
    (opts : TextureOptions) (id : AssetId) :
    assocFind (forget s uri).map uri = none ∧
    (∀ k, k ≠ uri →
      assocFind (forget s uri).map k = assocFind s.map k) ∧
    (forget s uri).new = s.new ∧
    (forget s uri).user_id_counter = s.user_id_counter ∧
    (bevyScheme.isPrefixOf uri = true →
      parse_bevy_id (uri.drop 7) = some id →
      load (forget s uri) uri opts =
        (.ok (.Pending none),
         { map := assocInsert (assocErase s.map uri) uri
             ⟨(List.replicate 12 none).set (texture_option_bits opts)
                 (some s.user_id_counter), id, none⟩,
           new := s.new ++ [(uri, id)],
           user_id_counter := s.user_id_counter + 1,
           minted := s.minted ++ [s.user_id_counter] })) := by
  refine ⟨assocFind_erase_self s.map uri,
    fun k hk => assocFind_erase_ne s.map uri k hk, rfl, rfl, ?_⟩
  intro hpre hparse
  exact load_fresh (forget s uri) uri opts id hpre
    (assocFind_erase_self s.map uri) hparse

/- ## Concrete data for witnesses -/

def wOpts : TextureOptions := ⟨.Nearest, .Nearest, .ClampToEdge⟩

def wUri : List Char := "bevy://index/5".data

def wEntry : LoaderEntry := ⟨List.replicate 12 none, .index 0 5, none⟩

def wEntrySized : LoaderEntry :=
  ⟨List.replicate 12 none, .index 0 5, some ⟨256, 256⟩⟩

def wState : BevyTextureLoader :=
  ⟨[(wUri, wEntry)], [(wUri, .index 0 5)], 1, [0]⟩

def wStateSized : BevyTextureLoader :=
  ⟨[(wUri, wEntrySized)], [(wUri, .index 0 5)], 1, [0]⟩

/-- Witness for C1 at a concrete state holding one entry. -/
theorem claim_C1_witness :
    ∃ h : Nat,
      slotOf (load wState wUri wOpts).2 wUri (texture_option_bits wOpts) =
        some h ∧
      (wEntry.egui_ids.getD (texture_option_bits wOpts) none = none →
        h = wState.user_id_counter) ∧
      (load (load wState wUri wOpts).2 wUri wOpts).2 =
        (load wState wUri wOpts).2 ∧
      slotOf (load (load wState wUri wOpts).2 wUri wOpts).2 wUri
        (texture_option_bits wOpts) = some h :=
  claim_C1 wState wUri wOpts wEntry (by decide) (by decide) (by decide)

/-- Witness for C2 on the empty initial state. -/
theorem claim_C2_witness :
    (load initLoader wUri wOpts).1 = .ok (.Pending none) ∧
    assocFind (load initLoader wUri wOpts).2.map wUri =
      some ⟨(List.replicate 12 none).set (texture_option_bits wOpts)
          (some initLoader.user_id_counter), .index 0 5, none⟩ ∧
    (∀ k, k ≠ wUri →
      assocFind (load initLoader wUri wOpts).2.map k =
        assocFind initLoader.map k) ∧
    (load initLoader wUri wOpts).2.new =
      initLoader.new ++ [(wUri, .index 0 5)] ∧
    (load initLoader wUri wOpts).2.user_id_counter =
      initLoader.user_id_counter + 1 ∧
    ∀ opts2,
      (load (load initLoader wUri wOpts).2 wUri opts2).2.new =
        (load initLoader wUri wOpts).2.new :=
  claim_C2 initLoader wUri wOpts (.index 0 5) (by decide) (by decide)
    (by decide)

/-- Witness for C5: a foreign scheme and a malformed `bevy://` payload
both fail without side effects. -/
theorem claim_C5_witness :
    load initLoader ("file://x.png".data) wOpts =
      (.error .NotSupported, initLoader) ∧
    load initLoader ("bevy://garbage".data) wOpts =
      (.error .NotSupported, initLoader) :=
  ⟨(claim_C5 initLoader ("file://x.png".data) wOpts).1 (by decide),
   (claim_C5 initLoader ("bevy://garbage".data) wOpts).2 (by decide)
     (by decide)⟩

/-- Witness for C6: a resolved entry answers Ready with the stored size
on the very first request of a fresh variant. -/
theorem claim_C6_witness :
    (load wStateSized wUri wOpts).1 =
      .ok (.Ready ⟨.User ((wEntrySized.egui_ids.getD
          (texture_option_bits wOpts) none).getD
            wStateSized.user_id_counter), ⟨256, 256⟩⟩) :=
  claim_C6 wStateSized wUri wOpts wEntrySized ⟨256, 256⟩ (by decide)
    (by decide) (by decide)

/-- Witness for C7 at a concrete populated state. -/
theorem claim_C7_witness :
    assocFind (forget wState wUri).map wUri = none ∧
    load (forget wState wUri) wUri wOpts =
      (.ok (.Pending none),
       { map := assocInsert (assocErase wState.map wUri) wUri
           ⟨(List.replicate 12 none).set (texture_option_bits wOpts)
               (some wState.user_id_counter), .index 0 5, none⟩,
         new := wState.new ++ [(wUri, .index 0 5)],
         user_id_counter := wState.user_id_counter + 1,
         minted := wState.minted ++ [wState.user_id_counter] }) :=
  ⟨(claim_C7 wState wUri wOpts (.index 0 5)).1,
   (claim_C7 wState wUri wOpts (.index 0 5)).2.2.2.2 (by decide) (by decide)⟩

/- ## Option-Variant Codec claims -/

/-- The decoder only inspects the low four bits. -/
theorem mod16_and (b k : Nat) (hk : 15 &&& k = k) :
    b % 16 &&& k = b &&& k := by
  have h15 : b &&& 15 = b % 16 := by
    have h := Nat.and_pow_two_sub_one_eq_mod b 4
    norm_num at h
    exact h
  rw [← h15, Nat.and_assoc, hk]

/-- `decode_texture_option_bits` factors through `% 16`. -/
theorem decode_texture_option_bits_mod16 (b : Nat) :
    decode_texture_option_bits (b % 16) = decode_texture_option_bits b := by
  unfold decode_texture_option_bits
  rw [mod16_and b 1 (by decide), mod16_and b 2 (by decide),
    mod16_and b 4 (by decide), mod16_and b 8 (by decide)]

/-- C4: the option-variant codec is a two-sided inverse over the 12
reachable index values: decoding then encoding is the identity on
`[0, 12)`, and encoding then decoding is the identity on option values,
with every encoded index in `[0, 12)`. -/
theorem claim_C4 :
    (∀ i : Nat, i < 12 →
      texture_option_bits (decode_texture_option_bits i) = i) ∧
    (∀ o : TextureOptions,
      decode_texture_option_bits (texture_option_bits o) = o ∧
      texture_option_bits o < 12) := by
  constructor
  · intro i hi
    interval_cases i <;> decide
  · intro o
    obtain ⟨m, n, w⟩ := o
    cases m <;> cases n <;> cases w <;> decide

/-- Witness for C4 at index 7 and one concrete options value. -/
theorem claim_C4_witness :
    texture_option_bits (decode_texture_option_bits 7) = 7 ∧
    (decode_texture_option_bits
        (texture_option_bits ⟨.Linear, .Nearest, .Repeat⟩) =
      ⟨.Linear, .Nearest, .Repeat⟩ ∧
      texture_option_bits ⟨.Linear, .Nearest, .Repeat⟩ < 12) :=
  ⟨claim_C4.1 7 (by decide), claim_C4.2 ⟨.Linear, .Nearest, .Repeat⟩⟩

/-- Counterexample for C9: the decoder's input type (an unbounded
machine integer) does not make unreachable values impossible, and on the
unreachable index 12 (no options value encodes to it, as 12 is outside
`[0, 12)`) the decoder silently returns the same sampling-options value
as the reachable index 4 instead of failing. -/
theorem claim_C9_counterexample :
    ¬ 12 < 12 ∧
    decode_texture_option_bits 12 = decode_texture_option_bits 4 ∧
    decode_texture_option_bits 12 = ⟨.Nearest, .Nearest, .Repeat⟩ := by
  decide

/-- C9 amended: `decode_texture_option_bits` is total and never fails;
on every input — reachable or not — it silently returns the
sampling-options value of some reachable index (the encoding of its own
result, which always lies in `[0, 12)`).  There is no `InvalidVariant`
error anywhere in the loader. -/
theorem claim_C9_amended (bits : Nat) :
    texture_option_bits (decode_texture_option_bits bits) < 12 ∧
    decode_texture_option_bits
        (texture_option_bits (decode_texture_option_bits bits)) =
      decode_texture_option_bits bits := by
  rw [← decode_texture_option_bits_mod16 bits]
  have h : bits % 16 < 16 := Nat.mod_lt _ (by norm_num)
  set m := bits % 16 with hm
  interval_cases m <;> decide

/- ## Decimal round trip -/

theorem digitChar_isDigit (d : Nat) (h : d < 10) :
    (Nat.digitChar d).isDigit = true := by
  interval_cases d <;> decide

theorem digitChar_toNat (d : Nat) (h : d < 10) :
    (Nat.digitChar d).toNat - 48 = d := by
  interval_cases d <;> decide

theorem parseDecCore_append (xs ys : List Char) (acc a : Nat)
    (h : parseDecCore acc xs = some a) :
    parseDecCore acc (xs ++ ys) = parseDecCore a ys := by
  induction xs generalizing acc with
  | nil =>
    simp [parseDecCore] at h
    subst h
    rfl
  | cons c cs ih =>
    by_cases hc : c.isDigit
    · simp only [parseDecCore, hc, if_true, List.cons_append] at h ⊢
      exact ih _ h
    · simp [parseDecCore, hc] at h

theorem parseDecCore_decCharsAux (fuel : Nat) :
    ∀ n acc, n ≤ fuel →
      parseDecCore acc ((decCharsAux fuel n).reverse) =
        some (acc * 10 ^ (decCharsAux fuel n).length + n) := by
  induction fuel with
  | zero =>
    intro n acc hn
    interval_cases n
    simp [decCharsAux, parseDecCore]
  | succ fuel ih =>
    intro n acc hn
    by_cases h0 : n = 0
    · subst h0
      simp [decCharsAux, parseDecCore]
    · have hrec : n / 10 ≤ fuel := by omega
      have hdig : n % 10 < 10 := Nat.mod_lt _ (by norm_num)
      simp only [decCharsAux, h0, if_false, List.reverse_cons]
      rw [parseDecCore_append _ _ _ _ (ih (n / 10) acc hrec)]
      have hstep :
          parseDecCore (acc * 10 ^ (decCharsAux fuel (n / 10)).length + n / 10)
            [Nat.digitChar (n % 10)] =
          some ((acc * 10 ^ (decCharsAux fuel (n / 10)).length + n / 10) * 10 +
            (n % 10)) := by
        simp [parseDecCore, digitChar_isDigit _ hdig, digitChar_toNat _ hdig]
      rw [hstep]
      congr 1
      have hdm : 10 * (n / 10) + n % 10 = n := Nat.div_add_mod n 10
      simp only [List.length_cons, pow_succ]
      calc (acc * 10 ^ (decCharsAux fuel (n / 10)).length + n / 10) * 10 +
            n % 10
          = acc * (10 ^ (decCharsAux fuel (n / 10)).length * 10) +
              (10 * (n / 10) + n % 10) := by ring
        _ = acc * (10 ^ (decCharsAux fuel (n / 10)).length * 10) + n := by
              rw [hdm]

theorem decCharsAux_digits (fuel : Nat) :
    ∀ n c, c ∈ decCharsAux fuel n → c.isDigit = true := by
  induction fuel with
  | zero => intro n c hc; simp [decCharsAux] at hc
  | succ fuel ih =>
    intro n c hc
    by_cases h0 : n = 0
    · subst h0; simp [decCharsAux] at hc
    · simp only [decCharsAux, h0, if_false, List.mem_cons] at hc
      rcases hc with hc | hc
      · subst hc
        exact digitChar_isDigit _ (Nat.mod_lt _ (by norm_num))
      · exact ih _ _ hc

/-- `u64::from_str` inverts `format!` on every `u64` value. -/
theorem parseU64_natToDecChars (n : Nat) (h : n < 2 ^ 64) :
    parseU64 (natToDecChars n) = some n := by
  by_cases h0 : n = 0
  · subst h0
    decide
  · have hne : decCharsAux n n ≠ [] := by
      cases n with
      | zero => exact absurd rfl h0
      | succ m => simp [decCharsAux, h0]
    have hne' : (decCharsAux n n).reverse ≠ [] := by
      simpa using hne
    obtain ⟨c, cs', hcons⟩ := List.exists_cons_of_ne_nil hne'
    have hcmem : c ∈ decCharsAux n n := by
      have : c ∈ (decCharsAux n n).reverse := by rw [hcons]; simp
      simpa using this
    have hcdig : c.isDigit = true := decCharsAux_digits n n c hcmem
    have hcplus : c ≠ '+' := by
      intro hq
      rw [hq] at hcdig
      cases hcdig
    have hparse := parseDecCore_decCharsAux n n 0 (le_refl n)
    unfold natToDecChars
    rw [if_neg h0, hcons]
    have hhead : (c :: cs').head? ≠ some '+' := by
      simp [hcplus]
    rw [parseU64]
    simp only [hhead, if_false, List.isEmpty_cons, if_neg]
    rw [← hcons, hparse]
    simp only [Nat.zero_mul, Nat.zero_add]
    rw [if_pos h]
    simp

/- ## Hexadecimal round trip -/

theorem hexVal_digitChar (d : Nat) (h : d < 16) :
    hexVal (Nat.digitChar d) = some d := by
  interval_cases d <;> decide

theorem parseHexCore_hexFixed (w : Nat) :
    ∀ n acc rest, parseHexCore acc w (hexFixed w n ++ rest) =
      some (acc * 16 ^ w + n % 16 ^ w, rest) := by
  induction w with
  | zero =>
    intro n acc rest
    simp [hexFixed, parseHexCore, Nat.mod_one]
  | succ w ih =>
    intro n acc rest
    have hd : n / 16 ^ w % 16 < 16 := Nat.mod_lt _ (by norm_num)
    simp only [hexFixed, List.cons_append, parseHexCore,
      hexVal_digitChar _ hd, List.append_eq]
    rw [ih n (acc * 16 + n / 16 ^ w % 16) rest]
    congr 2
    rw [Nat.mod_pow_succ]
    ring

theorem parseHexCore_hexFixed_nil (w n acc : Nat) :
    parseHexCore acc w (hexFixed w n) =
      some (acc * 16 ^ w + n % 16 ^ w, []) := by
  have h := parseHexCore_hexFixed w n acc []
  simpa using h

/-- The modelled hyphenated parser inverts the modelled canonical
rendering on every 128-bit value. -/
theorem parseUuid_uuidChars (u : Nat) (h : u < 2 ^ 128) :
    parseUuid (uuidChars u) = some u := by
  unfold uuidChars parseUuid
  rw [parseHexCore_hexFixed 8 (u >>> 96) 0]
  simp only []
  rw [parseHexCore_hexFixed 4 (u >>> 80) 0]
  simp only []
  rw [parseHexCore_hexFixed 4 (u >>> 64) 0]
  simp only []
  rw [parseHexCore_hexFixed 4 (u >>> 48) 0]
  simp only []
  rw [parseHexCore_hexFixed_nil 12 u 0]
  simp only [Nat.zero_mul, Nat.zero_add]
  congr 1
  rw [Nat.shiftRight_eq_div_pow, Nat.shiftRight_eq_div_pow,
    Nat.shiftRight_eq_div_pow]
  have e1 : (16 : Nat) ^ 8 = 2 ^ 32 := by norm_num
  have e2 : (16 : Nat) ^ 4 = 2 ^ 16 := by norm_num
  have e3 : (16 : Nat) ^ 12 = 2 ^ 48 := by norm_num
  rw [e1, e2, e3]
  have hhi : u / 2 ^ 96 % 2 ^ 32 = u / 2 ^ 96 :=
    Nat.mod_eq_of_lt (by
      apply Nat.div_lt_of_lt_mul
      calc u < 2 ^ 128 := h
        _ = 2 ^ 96 * 2 ^ 32 := by norm_num)
  rw [hhi]
  omega

/- ## Packing of generation and index -/

/-- High 32 bits of the packed value recover the generation. -/
theorem pack_shiftRight (g i : Nat) (hi : i < 2 ^ 32) :
    (g <<< 32 ||| i) >>> 32 = g := by
  apply Nat.eq_of_testBit_eq
  intro k
  rw [Nat.testBit_shiftRight, Nat.testBit_or, Nat.testBit_shiftLeft]
  have h1 : i.testBit (32 + k) = false :=
    Nat.testBit_lt_two_pow
      (lt_of_lt_of_le hi (Nat.pow_le_pow_right (by norm_num) (by omega)))
  have h2 : 32 ≤ 32 + k := Nat.le_add_right _ _
  simp [h1, h2, Nat.add_sub_cancel_left]

/-- The `(v << 32) >> 32` idiom of the source (with the `u64` wrap made
explicit) is exactly `v % 2^32`. -/
theorem shift_low (v : Nat) :
    ((v <<< 32) % 2 ^ 64) >>> 32 = v % 2 ^ 32 := by
  apply Nat.eq_of_testBit_eq
  intro k
  rw [Nat.testBit_shiftRight, Nat.testBit_mod_two_pow,
    Nat.testBit_shiftLeft, Nat.testBit_mod_two_pow]
  by_cases hk : k < 32
  · have ha : 32 + k < 64 := by omega
    have hb : 32 ≤ 32 + k := Nat.le_add_right _ _
    simp [ha, hb, hk, Nat.add_sub_cancel_left]
  · have ha : ¬ 32 + k < 64 := by omega
    simp [ha, hk]

/-- Low 32 bits of the packed value recover the index. -/
theorem pack_mod (g i : Nat) (hi : i < 2 ^ 32) :
    (g <<< 32 ||| i) % 2 ^ 32 = i := by
  apply Nat.eq_of_testBit_eq
  intro k
  rw [Nat.testBit_mod_two_pow, Nat.testBit_or, Nat.testBit_shiftLeft]
  by_cases hk : k < 32
  · have hgek : ¬ 32 ≤ k := by omega
    simp [hk, hgek]
  · have hik : i.testBit k = false :=
      Nat.testBit_lt_two_pow
        (lt_of_lt_of_le hi (Nat.pow_le_pow_right (by norm_num) (by omega)))
    simp [hk, hik]

/-- The packed value fits in a `u64`. -/
theorem pack_lt (g i : Nat) (hg : g < 2 ^ 32) (hi : i < 2 ^ 32) :
    g <<< 32 ||| i < 2 ^ 64 := by
  apply Nat.or_lt_two_pow
  · rw [Nat.shiftLeft_eq]
    calc g * 2 ^ 32 < 2 ^ 32 * 2 ^ 32 := by
          exact Nat.mul_lt_mul_of_lt_of_le hg (le_refl _) (by norm_num)
      _ = 2 ^ 64 := by norm_num
  · exact lt_trans hi (by norm_num)

/- ## Literal-scheme reductions -/

theorem drop7_of_index (l : List Char) :
    (("bevy://index/".data ++ l)).drop 7 = "index/".data ++ l := rfl

theorem drop7_of_uuid (l : List Char) :
    (("bevy://uuid/".data ++ l)).drop 7 = "uuid/".data ++ l := rfl

theorem scheme_of_index (l : List Char) :
    bevyScheme.isPrefixOf ("bevy://index/".data ++ l) = true := rfl

theorem scheme_of_uuid (l : List Char) :
    bevyScheme.isPrefixOf ("bevy://uuid/".data ++ l) = true := rfl

theorem not_uuid_of_index (l : List Char) :
    ("uuid/".data).isPrefixOf ("index/".data ++ l) = false := rfl

theorem is_index_of_index (l : List Char) :
    ("index/".data).isPrefixOf ("index/".data ++ l) = true := by
  simp [List.isPrefixOf]

theorem is_uuid_of_uuid (l : List Char) :
    ("uuid/".data).isPrefixOf ("uuid/".data ++ l) = true := by
  simp [List.isPrefixOf]

theorem drop6_of_index (l : List Char) :
    ("index/".data ++ l).drop 6 = l := rfl

theorem drop5_of_uuid (l : List Char) :
    ("uuid/".data ++ l).drop 5 = l := rfl

/- ## C3: the resource-identifier codec round trip -/

/-- C3: for every representable identifier — a generation+index pair of
32-bit values packed as `(generation << 32) | index`, or a 128-bit UUID —
decoding the canonical key produced by encoding yields the original
identifier. -/
theorem claim_C3 :
    (∀ generation idx : Nat, generation < 2 ^ 32 → idx < 2 ^ 32 →
      from_key (into_uri (.index generation idx)) =
        some (.index generation idx)) ∧
    (∀ u : Nat, u < 2 ^ 128 →
      from_key (into_uri (.uuid u)) = some (.uuid u)) := by
  constructor
  · intro g i hg hi
    have hv : g <<< 32 ||| i < 2 ^ 64 := pack_lt g i hg hi
    show from_key ("bevy://index/".data ++ natToDecChars (g <<< 32 ||| i)) =
      some (.index g i)
    rw [from_key, scheme_of_index, if_pos rfl, drop7_of_index, parse_bevy_id,
      not_uuid_of_index, if_neg Bool.false_ne_true]
    rw [is_index_of_index, if_pos rfl, drop6_of_index,
      parseU64_natToDecChars _ hv]
    simp only [Option.map_some']
    rw [pack_shiftRight g i hi, shift_low, pack_mod g i hi]
    rw [Nat.mod_eq_of_lt hg, Nat.mod_eq_of_lt hi]
  · intro u hu
    show from_key ("bevy://uuid/".data ++ uuidChars u) = some (.uuid u)
    rw [from_key, scheme_of_uuid, if_pos rfl, drop7_of_uuid, parse_bevy_id,
      is_uuid_of_uuid, if_pos rfl, drop5_of_uuid, parseUuid_uuidChars u hu]
    rfl

/-- Witness for C3 at one identifier of each shape (the UUID value is
`550e8400-e29b-41d4-a716-446655440000`). -/
theorem claim_C3_witness :
    from_key (into_uri (.index 3 5)) = some (.index 3 5) ∧
    from_key (into_uri (.uuid 113059749145936325402354257176981405696)) =
      some (.uuid 113059749145936325402354257176981405696) :=
  ⟨claim_C3.1 3 5 (by norm_num) (by norm_num),
   claim_C3.2 113059749145936325402354257176981405696 (by norm_num)⟩

/- ## C8: allocator history across operation sequences -/

/-- One step preserves the invariant that the ghost mint history is
exactly `0, 1, …, counter - 1`. -/
theorem minted_step (s : BevyTextureLoader) (op : LoaderOp)
    (h : s.minted = List.range s.user_id_counter) :
    (stepOp s op).minted = List.range (stepOp s op).user_id_counter := by
  cases op with
  | forget uri => simpa [stepOp, forget] using h
  | forgetAll => simpa [stepOp, forget_all] using h
  | load uri options =>
    simp only [stepOp]
    cases hpre : bevyScheme.isPrefixOf uri with
    | false => simp [load, hpre, h]
    | true =>
      cases hfind : assocFind s.map uri with
      | some entry =>
        cases hslot :
            entry.egui_ids.getD (texture_option_bits options) none with
        | some id =>
          rw [load_existing_filled s uri options entry id hpre hfind hslot]
          exact h
        | none =>
          rw [load_existing_empty s uri options entry hpre hfind hslot]
          simp [h, List.range_succ]
      | none =>
        cases hparse : parse_bevy_id (uri.drop 7) with
        | none => simp [load, hpre, hfind, hparse, h]
        | some id =>
          rw [load_fresh s uri options id hpre hfind hparse]
          simp [h, List.range_succ]

theorem runOps_minted_inv (ops : List LoaderOp) :
    ∀ s : BevyTextureLoader, s.minted = List.range s.user_id_counter →
      (runOps s ops).minted = List.range (runOps s ops).user_id_counter := by
  induction ops with
  | nil => intro s h; exact h
  | cons op ops ih => intro s h; exact ih _ (minted_step s op h)

/-- C8: across every sequence of `load` / `forget` / `forget_all`
operations from the initial state, the handles ever minted are exactly
`0, 1, …, counter - 1` in mint order — each allocation returns the
pre-increment counter value — hence pairwise distinct and strictly
increasing; `forget` and `forget_all` never change the counter or the
mint history, so no handle value is ever reissued. -/
theorem claim_C8 (ops : List LoaderOp) :
    (runOps initLoader ops).minted =
      List.range (runOps initLoader ops).user_id_counter ∧
    List.Pairwise (· < ·) (runOps initLoader ops).minted ∧
    (∀ (s : BevyTextureLoader) (uri : List Char),
      (forget s uri).user_id_counter = s.user_id_counter ∧
      (forget s uri).minted = s.minted) ∧
    (∀ s : BevyTextureLoader,
      (forget_all s).user_id_counter = s.user_id_counter ∧
      (forget_all s).minted = s.minted) := by
  have hinv := runOps_minted_inv ops initLoader rfl
  refine ⟨hinv, ?_, fun s uri => ⟨rfl, rfl⟩, fun s => ⟨rfl, rfl⟩⟩
  rw [hinv]
  exact List.pairwise_lt_range _

/-- C10: `forget_all` clears only the registry map: the registration
queue keeps every record already enqueued (including those of keys whose
entries were just removed), and the allocator history and counter are
untouched. -/
theorem claim_C10 (s : BevyTextureLoader) :
    (forget_all s).new = s.new ∧
    (forget_all s).map = [] ∧
    (∀ k, assocFind (forget_all s).map k = none) ∧
    (forget_all s).user_id_counter = s.user_id_counter ∧
    (forget_all s).minted = s.minted :=
  ⟨rfl, rfl, fun _ => rfl, rfl, rfl⟩
